import Mathlib

/-
Verification of the lens (optics) demo repository.

The repository's single source file (src/index.js) is an annotated tutorial
exercising a third-party immutable optics library (lens construction,
lensProp, lensIndex, lensPath, view, set, over, compose, prop, assoc).
The library's own code is not part of the repository, so its operations are
modelled here from the specification's description of the optics engine
(sections 3, 4, 6, 7 of the spec); the demo file's own definitions
(person, getFirstName, setFirstName, the named lenses, the assoc examples)
are embedded directly from src/index.js.
-/

namespace Ramda

/-- Modelled from the spec: the dynamically typed data values the optics
engine operates on (spec section 3, Whole/Part).  Objects are ordered
key/value maps (JavaScript objects preserve insertion order), sequences are
lists, and `undefined` is the explicit absent-value marker the spec requires for
missing keys and out-of-range indices (spec sections 7 and 9). -/
inductive JVal : Type where
  | undefined : JVal
  | null : JVal
  | num : Int → JVal
  | str : String → JVal
  | arr : List JVal → JVal
  | obj : List (String × JVal) → JVal

/-- Modelled from the spec: a path segment is either a field-name identifier
or a non-negative integer index (spec section 3, PathSegment). -/
inductive Seg : Type where
  | key : String → Seg
  | idx : Nat → Seg
deriving DecidableEq

/-- Lookup of a key in an ordered field list; `none` when the key is absent. -/
def getKey (k : String) : List (String × JVal) → Option JVal
  | [] => none
  | (k1, v1) :: rest => if k1 = k then some v1 else getKey k rest

/-- Rebinding of a key in an ordered field list: an existing key keeps its
position, a new key is appended at the end (JavaScript object shallow-copy
semantics, spec section 4.2: preserving all other keys and their order). -/
def setKey (k : String) (v : JVal) : List (String × JVal) → List (String × JVal)
  | [] => [(k, v)]
  | (k1, v1) :: rest => if k1 = k then (k1, v) :: rest else (k1, v1) :: setKey k v rest

/-- Element at ordinal position `i` of a list, or the absent-value marker. -/
def nthList : Nat → List JVal → JVal
  | _, [] => .undefined
  | 0, x :: _ => x
  | n + 1, _ :: rest => nthList n rest

/-- In-range replacement at position `i`: out-of-range indices leave the
list unchanged (the demonstrated library's bounds-checked update; the spec
leaves the out-of-range policy open in section 9). -/
def updateList (v : JVal) : Nat → List JVal → List JVal
  | _, [] => []
  | 0, _ :: rest => v :: rest
  | n + 1, x :: rest => x :: updateList v n rest

/-- Replacement at position `i` that pads with the absent-value marker when
`i` is beyond the current length (JavaScript array index-assignment
semantics, used by the path setter's array branch). -/
def setIdxPad (v : JVal) : Nat → List JVal → List JVal
  | 0, [] => [v]
  | 0, _ :: rest => v :: rest
  | n + 1, [] => .undefined :: setIdxPad v n []
  | n + 1, x :: rest => x :: setIdxPad v n rest

/-- Modelled from the spec: the `prop` read primitive (spec section 4.2,
propOptic getter): `whole[name]`, or the absent-value marker if the key is
not present or the datum is not an object. -/
def prop (k : String) : JVal → JVal
  | .obj fs => (getKey k fs).getD .undefined
  | _ => .undefined

/-- Modelled from the spec: the `assoc` write primitive (spec section 4.2,
propOptic setter): a shallow copy of the whole with the key rebound,
preserving all other keys and their order.  On a sequence the demonstrated
library's copy loop turns the sequence into an index-keyed map before
rebinding; on a non-container the copy is empty, so the result holds only
the new key. -/
def assoc (k : String) (v : JVal) : JVal → JVal
  | .obj fs => .obj (setKey k v fs)
  | .arr xs => .obj (setKey k v (xs.enum.map fun p => (toString p.1, p.2)))
  | _ => .obj [(k, v)]

/-- Modelled from the spec: the `nth` read primitive (spec section 4.2,
indexOptic getter): the element at ordinal position `i`, or the
absent-value marker if out of bounds or the datum is not a sequence. -/
def nth (i : Nat) : JVal → JVal
  | .arr xs => nthList i xs
  | _ => .undefined

/-- Modelled from the spec: the `update` write primitive (spec section 4.2,
indexOptic setter): a new sequence of the same length with position `i`
replaced; an out-of-range index leaves the sequence unchanged (the
demonstrated library's policy for the question the spec leaves open in
section 9).  A non-sequence datum is returned unchanged (the spec classes
this as a caller-side type mismatch, section 7). -/
def update (i : Nat) (v : JVal) : JVal → JVal
  | .arr xs => .arr (updateList v i xs)
  | d => d

/-- Read of one path segment: key segments read objects, index segments read
sequences; anything else yields the absent-value marker. -/
def segGet : Seg → JVal → JVal
  | .key k, d => prop k d
  | .idx i, d => nth i d

/-- Whether one path segment is actually present in the datum. -/
def hasSeg : Seg → JVal → Bool
  | .key k, .obj fs => (getKey k fs).isSome
  | .idx i, .arr xs => decide (i < xs.length)
  | _, _ => false

/-- Write of one path segment (the demonstrated library's single-segment
assoc): key segments rebind objects, index segments rewrite sequences with
index-assignment padding; a fresh sequence is produced when an index
segment meets a non-sequence. -/
def assocI : Seg → JVal → JVal → JVal
  | .key k, v, d => assoc k v d
  | .idx i, v, .arr xs => .arr (setIdxPad v i xs)
  | .idx i, v, _ => .arr (setIdxPad v i [])

/-- Modelled from the spec: the multi-segment read (spec section 4.2,
pathOptic getter): segments applied left to right to successively deeper
levels, short-circuiting to the absent-value marker when a level is absent
(absence propagates because every primitive read of the marker yields the
marker again). -/
def path : List Seg → JVal → JVal
  | [], d => d
  | s :: rest, d => path rest (segGet s d)

/-- Fresh empty container matching the KIND of the next path segment:
a sequence before an index segment, an object before a key segment. -/
def freshFor : Seg → JVal
  | .key _ => .obj []
  | .idx _ => .arr []

/-- The datum the tail of a path is written into: the existing child when the
head segment is present, otherwise a fresh empty container whose kind is
chosen by the next segment (the demonstrated library's assocPath). -/
def childFor (s s2 : Seg) (d : JVal) : JVal :=
  if hasSeg s d then segGet s d else freshFor s2

/-- Modelled from the spec: the multi-segment write (spec section 4.2,
pathOptic setter): the tail of the path is written into the head segment's
child (a fresh container when that child is absent), and the rebuilt child
is written back at the head segment. -/
def assocPath : List Seg → JVal → JVal → JVal
  | [], v, _ => v
  | [s], v, d => assocI s v d
  | s :: s2 :: rest, v, d => assocI s (assocPath (s2 :: rest) v (childFor s s2 d)) d

/-- Modelled from the spec: an Optic is an opaque value pairing a getter
with a setter (spec section 3). -/
structure Lens where
  get : JVal → JVal
  set : JVal → JVal → JVal

/-- Modelled from the spec: the Optic constructor makeOptic (spec section
4.1; R.lens in the demo). -/
def lens (g : JVal → JVal) (s : JVal → JVal → JVal) : Lens :=
  { get := g, set := s }

/-- Modelled from the spec: view applies the optic's getter (spec section
4.4; R.view in the demo). -/
def view (l : Lens) (d : JVal) : JVal :=
  l.get d

/-- Modelled from the spec: set applies the optic's setter (spec section
4.4; R.set in the demo). -/
def set (l : Lens) (v : JVal) (d : JVal) : JVal :=
  l.set v d

/-- Modelled from the spec: over transforms the focused part with a pure
function, applying the setter to the transformed getter result (spec
section 4.4; R.over in the demo). -/
def over (l : Lens) (f : JVal → JVal) (d : JVal) : JVal :=
  l.set (f (l.get d)) d

/-- Modelled from the spec: the composition engine (spec section 4.3;
R.compose in the demo).  The composed getter applies outer-to-inner; the
composed setter views down with the outer getter, rewrites the inner level,
and writes the rebuilt intermediate back with the outer setter. -/
def compose (l1 l2 : Lens) : Lens :=
  { get := fun d => l2.get (l1.get d)
    set := fun v d => l1.set (l2.set v (l1.get d)) d }

/-- Modelled from the spec: propOptic (spec section 4.2; R.lensProp). -/
def lensProp (k : String) : Lens :=
  lens (prop k) (assoc k)

/-- Modelled from the spec: indexOptic (spec section 4.2; R.lensIndex). -/
def lensIndex (i : Nat) : Lens :=
  lens (nth i) (update i)

/-- Modelled from the spec: pathOptic (spec section 4.2; R.lensPath). -/
def lensPath (p : List Seg) : Lens :=
  lens (path p) (assocPath p)

/-- Modelled from the spec: the uppercase string transform passed to over in
the demo (R.toUpper); non-strings are returned unchanged. -/
def toUpper : JVal → JVal
  | .str s => .str s.toUpper
  | d => d

/-- One path segment is shape-compatible with a datum when the container
kind matches the segment kind: key segments address objects, index segments
address sequences. -/
def segFits : Seg → JVal → Bool
  | .key _, .obj _ => true
  | .idx _, .arr _ => true
  | _, _ => false

/-- A path is shape-compatible with a datum when, level by level, every
segment meets a container of its kind — either the existing child or, when
the child is absent, the fresh container the setter would create. -/
def pathFits : List Seg → JVal → Bool
  | [], _ => true
  | [s], d => segFits s d
  | s :: s2 :: rest, d => segFits s d && pathFits (s2 :: rest) (childFor s s2 d)

/-- Every level of the path is actually present in the datum. -/
def hasPath : List Seg → JVal → Bool
  | [], _ => true
  | s :: rest, d => hasSeg s d && hasPath rest (segGet s d)

/-- Two paths diverge when they differ at some position that both possess. -/
def diverges : List Seg → List Seg → Bool
  | q1 :: q, p1 :: p => if q1 = p1 then diverges q p else true
  | _, _ => false

end Ramda

namespace Demo

open Ramda

/- The demo's sample datum (src/index.js lines 18-27). -/
def person : JVal :=
  .obj
    [("name", .obj [("first", .str "John"), ("last", .str "Doe")]),
     ("phones", .arr
       [.obj [("type", .str "home"), ("number", .str "5556667777")],
        .obj [("type", .str "work"), ("number", .str "5554443333")]])]

/- The hand-written getter (src/index.js line 30): data.name.first. -/
def getFirstName (d : JVal) : JVal :=
  prop "first" (prop "name" d)

/- The hand-written setter (src/index.js lines 31-37): a spread copy of the
datum with a spread copy of its name object, first rebound. -/
def setFirstName (v : JVal) (d : JVal) : JVal :=
  assoc "name" (assoc "first" v (prop "name" d)) d

/- src/index.js line 40. -/
def firstNameLens : Lens :=
  lens getFirstName setFirstName

/- src/index.js line 80. -/
def firstNameAssoc : JVal :=
  assoc "firstName" (.str "Jane") person

/- src/index.js line 81: the property name holds a dot, and is still one
literal key. -/
def firstNameAssoc2 : JVal :=
  assoc "name.first" (.str "Jane") person

/- src/index.js line 87. -/
def firstNameLensByPropAndAssoc : Lens :=
  lens (prop "firstName") (fun v d => assoc "firstName" v d)

/- src/index.js line 95. -/
def lastNameLens : Lens :=
  lensProp "lastName"

/- src/index.js line 101. -/
def firstPhoneLens : Lens :=
  lensIndex 0

/- src/index.js line 111. -/
def homePhoneNumberLens : Lens :=
  lensPath [.key "phones", .idx 0, .key "number"]

/- src/index.js line 128. -/
def phonesLens : Lens :=
  lensProp "phones"

/- src/index.js line 129. -/
def workPhoneLens : Lens :=
  lensIndex 1

/- src/index.js line 130. -/
def phoneNumberLens : Lens :=
  lensProp "number"

/- src/index.js lines 135-139: composition is outer-to-inner, phones first. -/
def workPhoneNumberLens : Lens :=
  compose phonesLens (compose workPhoneLens phoneNumberLens)

end Demo

namespace Ramda

theorem getKey_setKey_same (k : String) (v : JVal) :
    ∀ fs, getKey k (setKey k v fs) = some v
  | [] => by simp [setKey, getKey]
  | (k1, v1) :: rest => by
      by_cases h : k1 = k
      · simp [setKey, getKey, h]
      · simp [setKey, getKey, h, getKey_setKey_same k v rest]

theorem getKey_setKey_ne (k j : String) (v : JVal) (hj : j ≠ k) :
    ∀ fs, getKey j (setKey k v fs) = getKey j fs
  | [] => by simp [setKey, getKey, Ne.symm hj]
  | (k1, v1) :: rest => by
      by_cases h : k1 = k
      · subst h
        simp [setKey, getKey, Ne.symm hj]
      · simp only [setKey, if_neg h, getKey]
        by_cases h1 : k1 = j
        · simp [h1]
        · simp [h1, getKey_setKey_ne k j v hj rest]

theorem setKey_absent (k : String) (v : JVal) :
    ∀ fs, getKey k fs = none → setKey k v fs = fs ++ [(k, v)]
  | [] => by simp [setKey]
  | (k1, v1) :: rest => by
      intro h
      by_cases h1 : k1 = k
      · simp [getKey, h1] at h
      · simp only [getKey, if_neg h1] at h
        simp [setKey, h1, setKey_absent k v rest h]

theorem setKey_self (k : String) :
    ∀ fs x, getKey k fs = some x → setKey k x fs = fs
  | [], x => by simp [getKey]
  | (k1, v1) :: rest, x => by
      intro h
      by_cases h1 : k1 = k
      · simp only [getKey, if_pos h1, Option.some.injEq] at h
        simp [setKey, h1, h]
      · simp only [getKey, if_neg h1] at h
        simp [setKey, h1, setKey_self k rest x h]

theorem setKey_keys (k : String) (v : JVal) :
    ∀ fs, (getKey k fs).isSome = true →
      (setKey k v fs).map Prod.fst = fs.map Prod.fst
  | [] => by simp [getKey]
  | (k1, v1) :: rest => by
      intro h
      by_cases h1 : k1 = k
      · simp [setKey, h1]
      · simp only [getKey, if_neg h1] at h
        simp [setKey, h1, setKey_keys k v rest h]

theorem nthList_oob : ∀ (i : Nat) (xs : List JVal), xs.length ≤ i → nthList i xs = .undefined
  | i, [], _ => by cases i <;> rfl
  | 0, x :: rest, h => by simp at h
  | n + 1, x :: rest, h => by
      simp only [List.length_cons, Nat.add_le_add_iff_right] at h
      exact nthList_oob n rest h

theorem updateList_oob (v : JVal) :
    ∀ (i : Nat) (xs : List JVal), xs.length ≤ i → updateList v i xs = xs
  | i, [], _ => by cases i <;> rfl
  | 0, x :: rest, h => by simp at h
  | n + 1, x :: rest, h => by
      simp only [List.length_cons, Nat.add_le_add_iff_right] at h
      simp [updateList, updateList_oob v n rest h]

theorem nthList_updateList_same (v : JVal) :
    ∀ (i : Nat) (xs : List JVal), i < xs.length → nthList i (updateList v i xs) = v
  | 0, x :: rest, h => rfl
  | n + 1, x :: rest, h => by
      simp only [List.length_cons, Nat.add_lt_add_iff_right] at h
      simpa [updateList, nthList] using nthList_updateList_same v n rest h

theorem nthList_updateList_ne (v : JVal) :
    ∀ (i j : Nat) (xs : List JVal), j ≠ i → nthList j (updateList v i xs) = nthList j xs
  | i, j, [], _ => by cases i <;> cases j <;> rfl
  | 0, 0, x :: rest, h => absurd rfl h
  | 0, j + 1, x :: rest, h => rfl
  | i + 1, 0, x :: rest, h => rfl
  | i + 1, j + 1, x :: rest, h => by
      simpa [updateList, nthList] using
        nthList_updateList_ne v i j rest (fun hji => h (by rw [hji]))

theorem updateList_length (v : JVal) :
    ∀ (i : Nat) (xs : List JVal), (updateList v i xs).length = xs.length
  | i, [] => by cases i <;> rfl
  | 0, x :: rest => rfl
  | n + 1, x :: rest => by simp [updateList, updateList_length v n rest]

theorem updateList_self :
    ∀ (i : Nat) (xs : List JVal), updateList (nthList i xs) i xs = xs
  | i, [] => by cases i <;> rfl
  | 0, x :: rest => rfl
  | n + 1, x :: rest => by simp [updateList, nthList, updateList_self n rest]

theorem nthList_setIdxPad_same (v : JVal) :
    ∀ (i : Nat) (xs : List JVal), nthList i (setIdxPad v i xs) = v
  | 0, [] => rfl
  | 0, x :: rest => rfl
  | n + 1, [] => by simpa [setIdxPad, nthList] using nthList_setIdxPad_same v n []
  | n + 1, x :: rest => by simpa [setIdxPad, nthList] using nthList_setIdxPad_same v n rest

theorem nthList_setIdxPad_ne (v : JVal) :
    ∀ (i j : Nat) (xs : List JVal), j ≠ i → nthList j (setIdxPad v i xs) = nthList j xs
  | 0, 0, _, h => absurd rfl h
  | 0, j + 1, [], h => by simp [setIdxPad, nthList]
  | 0, j + 1, x :: rest, h => rfl
  | i + 1, 0, [], h => rfl
  | i + 1, 0, x :: rest, h => rfl
  | i + 1, j + 1, [], h => by
      simpa [setIdxPad, nthList] using
        nthList_setIdxPad_ne v i j [] (fun hji => h (by rw [hji]))
  | i + 1, j + 1, x :: rest, h => by
      simpa [setIdxPad, nthList] using
        nthList_setIdxPad_ne v i j rest (fun hji => h (by rw [hji]))

theorem setIdxPad_self :
    ∀ (i : Nat) (xs : List JVal), i < xs.length → setIdxPad (nthList i xs) i xs = xs
  | 0, x :: rest, h => rfl
  | n + 1, x :: rest, h => by
      simp only [List.length_cons, Nat.add_lt_add_iff_right] at h
      simp [setIdxPad, nthList, setIdxPad_self n rest h]

end Ramda

namespace Ramda

theorem nthList_nil (i : Nat) : nthList i [] = .undefined := by
  cases i <;> rfl

theorem prop_assoc_same (k : String) (v : JVal) : ∀ d, prop k (assoc k v d) = v := by
  intro d
  cases d <;> simp [prop, assoc, getKey_setKey_same, getKey]

theorem prop_assoc_ne (k j : String) (v : JVal) (fs : List (String × JVal)) (hj : j ≠ k) :
    prop j (assoc k v (.obj fs)) = prop j (.obj fs) := by
  simp [prop, assoc, getKey_setKey_ne k j v hj]

theorem segFits_key {k : String} {d : JVal} (h : segFits (.key k) d = true) :
    ∃ fs, d = .obj fs := by
  cases d <;> simp [segFits] at h
  exact ⟨_, rfl⟩

theorem segFits_idx {i : Nat} {d : JVal} (h : segFits (.idx i) d = true) :
    ∃ xs, d = .arr xs := by
  cases d <;> simp [segFits] at h
  exact ⟨_, rfl⟩

theorem segGet_assocI_same (s : Seg) (v d : JVal) : segGet s (assocI s v d) = v := by
  cases s with
  | key k => simp [segGet, assocI, prop_assoc_same]
  | idx i => cases d <;> simp [segGet, assocI, nth, nthList_setIdxPad_same]

theorem segGet_assocI_ne {s t : Seg} (v : JVal) {d : JVal}
    (hfit : segFits t d = true) (hne : s ≠ t) :
    segGet s (assocI t v d) = segGet s d := by
  cases t with
  | key k =>
    obtain ⟨fs, rfl⟩ := segFits_key hfit
    cases s with
    | key j =>
      have hj : j ≠ k := fun h => hne (by rw [h])
      simpa [segGet, assocI] using prop_assoc_ne k j v fs hj
    | idx i => simp [segGet, assocI, assoc, nth]
  | idx i =>
    obtain ⟨xs, rfl⟩ := segFits_idx hfit
    cases s with
    | key j => simp [segGet, assocI, prop]
    | idx j =>
      have hj : j ≠ i := fun h => hne (by rw [h])
      simp [segGet, assocI, nth, nthList_setIdxPad_ne v i j xs hj]

theorem segGet_absent {s : Seg} {d : JVal} (h : hasSeg s d = false) :
    segGet s d = .undefined := by
  cases s with
  | key k =>
    cases d with
    | obj fs =>
      cases hgk : getKey k fs with
      | none => simp [segGet, prop, hgk]
      | some x => simp [hasSeg, hgk] at h
    | undefined => rfl
    | null => rfl
    | num n => rfl
    | str s1 => rfl
    | arr xs => rfl
  | idx i =>
    cases d with
    | arr xs =>
      have hb : decide (i < xs.length) = false := by simpa [hasSeg] using h
      have hi : xs.length ≤ i := by
        have := of_decide_eq_false hb
        omega
      simp [segGet, nth, nthList_oob i xs hi]
    | undefined => rfl
    | null => rfl
    | num n => rfl
    | str s1 => rfl
    | obj fs => rfl

theorem assocI_self {s : Seg} {d : JVal} (h : hasSeg s d = true) :
    assocI s (segGet s d) d = d := by
  cases s with
  | key k =>
    cases d with
    | obj fs =>
      cases hgk : getKey k fs with
      | none => simp [hasSeg, hgk] at h
      | some x => simp [assocI, segGet, prop, assoc, hgk, setKey_self k fs x hgk]
    | undefined => simp [hasSeg] at h
    | null => simp [hasSeg] at h
    | num n => simp [hasSeg] at h
    | str s1 => simp [hasSeg] at h
    | arr xs => simp [hasSeg] at h
  | idx i =>
    cases d with
    | arr xs =>
      have hi : i < xs.length := by simpa [hasSeg] using h
      simp [assocI, segGet, nth, setIdxPad_self i xs hi]
    | undefined => simp [hasSeg] at h
    | null => simp [hasSeg] at h
    | num n => simp [hasSeg] at h
    | str s1 => simp [hasSeg] at h
    | obj fs => simp [hasSeg] at h

theorem path_undefined : ∀ p, path p .undefined = .undefined
  | [] => rfl
  | s :: rest => by
      cases s <;> simpa [path, segGet, prop, nth] using path_undefined rest

theorem segGet_fresh (s t : Seg) : segGet s (freshFor t) = .undefined := by
  cases s <;> cases t <;>
    simp [segGet, freshFor, prop, nth, getKey, nthList_nil]

theorem path_fresh (t s : Seg) (q : List Seg) : path (s :: q) (freshFor t) = .undefined := by
  simp [path, segGet_fresh s t, path_undefined]

theorem path_append : ∀ (p q : List Seg) (d : JVal), path (p ++ q) d = path q (path p d)
  | [], q, d => rfl
  | s :: rest, q, d => by simpa [path] using path_append rest q (segGet s d)

end Ramda

namespace Ramda

theorem pathFits_fresh : ∀ (s : Seg) (rest : List Seg), pathFits (s :: rest) (freshFor s) = true
  | s, [] => by cases s <;> simp [pathFits, segFits, freshFor]
  | s, s2 :: r => by
      have hh : hasSeg s (freshFor s) = false := by
        cases s <;> simp [hasSeg, freshFor, getKey]
      have hfit : segFits s (freshFor s) = true := by
        cases s <;> simp [segFits, freshFor]
      simp [pathFits, hfit, childFor, hh, pathFits_fresh s2 r]

theorem path_assocPath (v : JVal) :
    ∀ (p : List Seg) (d : JVal), pathFits p d = true → path p (assocPath p v d) = v
  | [], d, _ => rfl
  | [s], d, h => by
      simpa [path, assocPath] using segGet_assocI_same s v d
  | s :: s2 :: rest, d, h => by
      have hfit : segFits s d = true ∧ pathFits (s2 :: rest) (childFor s s2 d) = true := by
        simpa [pathFits, Bool.and_eq_true] using h
      have h1 : segGet s (assocI s (assocPath (s2 :: rest) v (childFor s s2 d)) d) =
          assocPath (s2 :: rest) v (childFor s s2 d) := segGet_assocI_same s _ d
      calc path (s :: s2 :: rest) (assocPath (s :: s2 :: rest) v d)
          = path (s2 :: rest) (segGet s (assocI s (assocPath (s2 :: rest) v (childFor s s2 d)) d)) := by
            simp [path, assocPath]
        _ = path (s2 :: rest) (assocPath (s2 :: rest) v (childFor s s2 d)) := by rw [h1]
        _ = v := path_assocPath v (s2 :: rest) (childFor s s2 d) hfit.2

theorem path_frame_aux (v : JVal) :
    ∀ (q p : List Seg) (d : JVal), pathFits p d = true → diverges q p = true →
      path q (assocPath p v d) = path q d
  | [], p, d, _, hd => by cases p <;> simp [diverges] at hd
  | q1 :: q, [], d, _, hd => by simp [diverges] at hd
  | q1 :: q, p1 :: p, d, hf, hd => by
      by_cases hqp : q1 = p1
      · subst hqp
        cases p with
        | nil =>
          simp only [diverges, if_pos rfl] at hd
          cases q <;> simp [diverges] at hd
        | cons p2 rest =>
          have hf2 : segFits q1 d = true ∧ pathFits (p2 :: rest) (childFor q1 p2 d) = true := by
            simpa [pathFits, Bool.and_eq_true] using hf
          have hd2 : diverges q (p2 :: rest) = true := by simpa [diverges] using hd
          have h1 : segGet q1 (assocI q1 (assocPath (p2 :: rest) v (childFor q1 p2 d)) d) =
              assocPath (p2 :: rest) v (childFor q1 p2 d) := segGet_assocI_same q1 _ d
          by_cases hh : hasSeg q1 d
          · have hchild : childFor q1 p2 d = segGet q1 d := by simp [childFor, hh]
            calc path (q1 :: q) (assocPath (q1 :: p2 :: rest) v d)
                = path q (assocPath (p2 :: rest) v (childFor q1 p2 d)) := by
                  simp [path, assocPath, h1]
              _ = path q (childFor q1 p2 d) :=
                  path_frame_aux v q (p2 :: rest) _ hf2.2 hd2
              _ = path q (segGet q1 d) := by rw [hchild]
              _ = path (q1 :: q) d := by simp [path]
          · have hh1 : hasSeg q1 d = false := by
              simp at hh
              exact hh
            have hchild : childFor q1 p2 d = freshFor p2 := by simp [childFor, hh1]
            obtain ⟨t, q2, rfl⟩ : ∃ t q2, q = t :: q2 := by
              cases q with
              | nil => simp [diverges] at hd2
              | cons t q2 => exact ⟨t, q2, rfl⟩
            calc path (q1 :: t :: q2) (assocPath (q1 :: p2 :: rest) v d)
                = path (t :: q2) (assocPath (p2 :: rest) v (childFor q1 p2 d)) := by
                  simp [path, assocPath, h1]
              _ = path (t :: q2) (childFor q1 p2 d) :=
                  path_frame_aux v (t :: q2) (p2 :: rest) _ hf2.2 hd2
              _ = .undefined := by rw [hchild]; exact path_fresh p2 t q2
              _ = path (t :: q2) .undefined := (path_undefined (t :: q2)).symm
              _ = path (t :: q2) (segGet q1 d) := by rw [segGet_absent hh1]
              _ = path (q1 :: t :: q2) d := by simp [path]
      · have hf1 : segFits p1 d = true := by
          cases p with
          | nil => simpa [pathFits] using hf
          | cons p2 rest =>
            have := by simpa [pathFits, Bool.and_eq_true] using hf
            exact (this : _ ∧ _).1
        cases p with
        | nil =>
          calc path (q1 :: q) (assocPath [p1] v d)
              = path q (segGet q1 (assocI p1 v d)) := by simp [path, assocPath]
            _ = path q (segGet q1 d) := by rw [segGet_assocI_ne v hf1 hqp]
            _ = path (q1 :: q) d := by simp [path]
        | cons p2 rest =>
          calc path (q1 :: q) (assocPath (p1 :: p2 :: rest) v d)
              = path q (segGet q1 (assocI p1 (assocPath (p2 :: rest) v (childFor p1 p2 d)) d)) := by
                simp [path, assocPath]
            _ = path q (segGet q1 d) := by rw [segGet_assocI_ne _ hf1 hqp]
            _ = path (q1 :: q) d := by simp [path]

theorem assocPath_self :
    ∀ (p : List Seg) (d : JVal), hasPath p d = true → assocPath p (path p d) d = d
  | [], d, _ => rfl
  | [s], d, h => by
      have hh : hasSeg s d = true := by simpa [hasPath, Bool.and_eq_true] using h
      simpa [assocPath, path] using assocI_self hh
  | s :: s2 :: rest, d, h => by
      have hh : hasSeg s d = true ∧ hasPath (s2 :: rest) (segGet s d) = true := by
        simpa [hasPath, Bool.and_eq_true] using h
      have hchild : childFor s s2 d = segGet s d := by simp [childFor, hh.1]
      calc assocPath (s :: s2 :: rest) (path (s :: s2 :: rest) d) d
          = assocI s (assocPath (s2 :: rest) (path (s2 :: rest) (segGet s d)) (childFor s s2 d)) d := by
            simp [assocPath, path]
        _ = assocI s (segGet s d) d := by
            rw [hchild, assocPath_self (s2 :: rest) (segGet s d) hh.2]
        _ = d := assocI_self hh.1

end Ramda

open Ramda

/-- C1: Get/set consistency.  Viewing through a lens immediately after
setting through it returns the value just written: this holds for the
demo's handwritten R.lens pair (firstNameLens), universally for lensProp,
for lensIndex on in-range indices of a sequence, and for lensPath on
shape-compatible data. -/
theorem C1_get_set_consistency :
    (∀ v d, view Demo.firstNameLens (set Demo.firstNameLens v d) = v) ∧
    (∀ k v d, view (lensProp k) (set (lensProp k) v d) = v) ∧
    (∀ i v xs, i < xs.length →
      view (lensIndex i) (set (lensIndex i) v (.arr xs)) = v) ∧
    (∀ p v d, pathFits p d = true →
      view (lensPath p) (set (lensPath p) v d) = v) := by
  refine ⟨?_, ?_, ?_, ?_⟩
  · intro v d
    show prop "first" (prop "name" (assoc "name" (assoc "first" v (prop "name" d)) d)) = v
    rw [prop_assoc_same, prop_assoc_same]
  · intro k v d
    exact prop_assoc_same k v d
  · intro i v xs h
    show nth i (update i v (.arr xs)) = v
    simp [nth, update, nthList_updateList_same v i xs h]
  · intro p v d h
    exact path_assocPath v p d h

/-- Witness for C1 at concrete inputs: an in-range index set and a
shape-compatible path set both read back the written value. -/
theorem C1_get_set_consistency_witness :
    view (lensIndex 1) (set (lensIndex 1) (.str "x") (.arr [.str "a", .str "b", .str "c"])) = .str "x" ∧
    view (lensPath [.key "phones", .idx 0, .key "number"])
      (set (lensPath [.key "phones", .idx 0, .key "number"]) (.str "5558882222") Demo.person) =
      .str "5558882222" :=
  ⟨C1_get_set_consistency.2.2.1 1 (.str "x") [.str "a", .str "b", .str "c"] (by decide),
   C1_get_set_consistency.2.2.2 [.key "phones", .idx 0, .key "number"] (.str "5558882222")
     Demo.person (by decide)⟩

/-- C2: Frame property of set.  The embedding is purely functional, so the
input datum is a value that cannot be altered; what remains to prove is
that the returned whole differs from the input at exactly the focused
position: every other key of an object (their order included), every other
index of a sequence (its length included), and every path diverging from
the focused path read unchanged. -/
theorem C2_set_frame :
    (∀ k j v fs, j ≠ k →
      view (lensProp j) (set (lensProp k) v (.obj fs)) = view (lensProp j) (.obj fs)) ∧
    (∀ k v fs, (getKey k fs).isSome = true →
      set (lensProp k) v (.obj fs) = .obj (setKey k v fs) ∧
      (setKey k v fs).map Prod.fst = fs.map Prod.fst) ∧
    (∀ i j v xs, j ≠ i →
      view (lensIndex j) (set (lensIndex i) v (.arr xs)) = view (lensIndex j) (.arr xs)) ∧
    (∀ i v xs, set (lensIndex i) v (.arr xs) = .arr (updateList v i xs) ∧
      (updateList v i xs).length = xs.length) ∧
    (∀ p q v d, pathFits p d = true → diverges q p = true →
      view (lensPath q) (set (lensPath p) v d) = view (lensPath q) d) := by
  refine ⟨?_, ?_, ?_, ?_, ?_⟩
  · intro k j v fs hj
    exact prop_assoc_ne k j v fs hj
  · intro k v fs h
    exact ⟨rfl, setKey_keys k v fs h⟩
  · intro i j v xs hj
    show nth j (update i v (.arr xs)) = nth j (.arr xs)
    simp [nth, update, nthList_updateList_ne v i j xs hj]
  · intro i v xs
    exact ⟨rfl, updateList_length v i xs⟩
  · intro p q v d hf hd
    exact path_frame_aux v q p d hf hd

/-- Witness for C2 at concrete inputs: setting one key leaves a sibling key
unchanged, keys of the copy stay in order, setting one index leaves a
sibling index unchanged, and setting a nested path leaves a diverging path
unchanged. -/
theorem C2_set_frame_witness :
    view (lensProp "last") (set (lensProp "first") (.str "Q")
      (.obj [("first", .str "John"), ("last", .str "Doe")])) =
      view (lensProp "last") (.obj [("first", .str "John"), ("last", .str "Doe")]) ∧
    (setKey "first" (.str "Q") [("first", .str "John"), ("last", .str "Doe")]).map Prod.fst =
      [("first", JVal.str "John"), ("last", JVal.str "Doe")].map Prod.fst ∧
    view (lensIndex 0) (set (lensIndex 1) (.str "x") (.arr [.str "a", .str "b"])) =
      view (lensIndex 0) (.arr [.str "a", .str "b"]) ∧
    view (lensPath [.key "name"])
      (set (lensPath [.key "phones", .idx 1, .key "number"]) (.str "0") Demo.person) =
      view (lensPath [.key "name"]) Demo.person :=
  ⟨C2_set_frame.1 "first" "last" (.str "Q") [("first", .str "John"), ("last", .str "Doe")]
     (by decide),
   (C2_set_frame.2.1 "first" (.str "Q") [("first", .str "John"), ("last", .str "Doe")]
     (by decide)).2,
   C2_set_frame.2.2.1 1 0 (.str "x") [.str "a", .str "b"] (by decide),
   C2_set_frame.2.2.2.2 [.key "phones", .idx 1, .key "number"] [.key "name"] (.str "0")
     Demo.person (by decide) (by decide)⟩

/-- C3: Composition order.  The getter of a composed lens applies
outer-to-inner, the first optic first, returning the innermost focused
part; concretely the demo's workPhoneNumberLens views person.phones[1].number. -/
theorem C3_compose_getter_order :
    (∀ l1 l2 l3 d, view (compose l1 (compose l2 l3)) d = view l3 (view l2 (view l1 d))) ∧
    view Demo.workPhoneNumberLens Demo.person = .str "5554443333" ∧
    view Demo.workPhoneNumberLens Demo.person =
      path [.key "phones", .idx 1, .key "number"] Demo.person :=
  ⟨fun _ _ _ _ => rfl, rfl, rfl⟩

/-- C4: over equivalence.  over applies the setter to the transform of
exactly the value view returns, for every lens, function and datum; in the
demo instance (R.over with R.toUpper on firstNameLens) the transform
receives the focused first name and its result becomes the new part. -/
theorem C4_over_equivalence :
    (∀ l f d, over l f d = set l (f (view l d)) d) ∧
    over Demo.firstNameLens toUpper Demo.person =
      set Demo.firstNameLens (toUpper (view Demo.firstNameLens Demo.person)) Demo.person ∧
    view Demo.firstNameLens (over Demo.firstNameLens toUpper Demo.person) =
      toUpper (.str "John") ∧
    view Demo.firstNameLens Demo.person = .str "John" :=
  ⟨fun _ _ _ => rfl, rfl, rfl, rfl⟩

/-- C5: Composition associativity.  Composing three lenses either way
yields the same behaviour under both view and set, for all lenses, data and
values. -/
theorem C5_compose_associativity :
    ∀ a b c : Lens, ∀ d v : JVal,
      view (compose (compose a b) c) d = view (compose a (compose b c)) d ∧
      set (compose (compose a b) c) v d = set (compose a (compose b c)) v d :=
  fun _ _ _ _ _ => ⟨rfl, rfl⟩

/-- C6: No-op set.  Writing back the viewed value is the identity: for
lensProp when the key is present, for lensIndex on any sequence (an
out-of-range index reads the absent marker and writes nothing), and for
lensPath when the whole path is present. -/
theorem C6_noop_set :
    (∀ k fs, (getKey k fs).isSome = true →
      set (lensProp k) (view (lensProp k) (.obj fs)) (.obj fs) = .obj fs) ∧
    (∀ i xs, set (lensIndex i) (view (lensIndex i) (.arr xs)) (.arr xs) = .arr xs) ∧
    (∀ p d, hasPath p d = true →
      set (lensPath p) (view (lensPath p) d) d = d) := by
  refine ⟨?_, ?_, ?_⟩
  · intro k fs h
    obtain ⟨x, hx⟩ := Option.isSome_iff_exists.mp h
    show Ramda.assoc k (Ramda.prop k (.obj fs)) (.obj fs) = .obj fs
    simp [Ramda.prop, Ramda.assoc, hx, setKey_self k fs x hx]
  · intro i xs
    show update i (nth i (.arr xs)) (.arr xs) = .arr xs
    simp [update, nth, updateList_self]
  · intro p d h
    exact assocPath_self p d h

/-- Witness for C6 at concrete inputs: a present key and a fully present
path are no-ops when the viewed value is written back. -/
theorem C6_noop_set_witness :
    set (lensProp "last") (view (lensProp "last") (.obj [("first", .str "John"), ("last", .str "Doe")]))
      (.obj [("first", .str "John"), ("last", .str "Doe")]) =
      .obj [("first", .str "John"), ("last", .str "Doe")] ∧
    set (lensPath [.key "name", .key "first"])
      (view (lensPath [.key "name", .key "first"]) Demo.person) Demo.person = Demo.person :=
  ⟨C6_noop_set.1 "last" [("first", .str "John"), ("last", .str "Doe")] (by decide),
   C6_noop_set.2.2 [.key "name", .key "first"] Demo.person (by decide)⟩

/-- C7: Path lenses short-circuit on absence.  Whenever some level of the
path is absent in the datum, the view of the whole path is the absent-value
marker (and the embedding is a total function, so no failure can be
thrown); concretely view of path a.b over a datum whose a is empty yields
the marker. -/
theorem C7_path_short_circuit :
    (∀ p1 s p2 d, hasSeg s (path p1 d) = false →
      view (lensPath (p1 ++ s :: p2)) d = .undefined) ∧
    view (lensPath [.key "a", .key "b"]) (.obj [("a", .obj [])]) = .undefined := by
  constructor
  · intro p1 s p2 d h
    show path (p1 ++ s :: p2) d = .undefined
    rw [path_append p1 (s :: p2) d]
    show path p2 (segGet s (path p1 d)) = .undefined
    rw [segGet_absent h, path_undefined]
  · rfl

/-- Witness for C7 at the spec's concrete scenario: the b level is absent
below a, and the view is the absent-value marker. -/
theorem C7_path_short_circuit_witness :
    view (lensPath ([Seg.key "a"] ++ Seg.key "b" :: [])) (.obj [("a", .obj [])]) = .undefined :=
  C7_path_short_circuit.1 [Seg.key "a"] (Seg.key "b") [] (.obj [("a", .obj [])]) (by decide)

/-- C8: Out-of-range index set is a no-op.  Setting through lensIndex at an
index at or past the end of the sequence returns the sequence unchanged:
it neither pads nor fails. -/
theorem C8_index_set_out_of_range :
    ∀ i v xs, xs.length ≤ i → set (lensIndex i) v (.arr xs) = .arr xs := by
  intro i v xs h
  show update i v (.arr xs) = .arr xs
  simp [update, updateList_oob v i xs h]

/-- Witness for C8 at a concrete input: setting index 5 of a two-element
sequence returns it unchanged. -/
theorem C8_index_set_out_of_range_witness :
    set (lensIndex 5) (.str "x") (.arr [.str "a", .str "b"]) = .arr [.str "a", .str "b"] :=
  C8_index_set_out_of_range 5 (.str "x") [.str "a", .str "b"] (by decide)

/-- C9: Absent key under lensProp.  Viewing a missing key yields the
absent-value marker, and setting it returns a copy with the key appended
and bound to the new value, every pre-existing key preserved in place. -/
theorem C9_prop_absent_key :
    ∀ k v fs, getKey k fs = none →
      view (lensProp k) (.obj fs) = .undefined ∧
      set (lensProp k) v (.obj fs) = .obj (fs ++ [(k, v)]) := by
  intro k v fs h
  constructor
  · show (getKey k fs).getD .undefined = .undefined
    simp [h]
  · show assoc k v (.obj fs) = .obj (fs ++ [(k, v)])
    simp [assoc, setKey_absent k v fs h]

/-- Witness for C9 at a concrete input: the demo's firstName key is absent
from a small object, views as the marker, and is appended by set. -/
theorem C9_prop_absent_key_witness :
    view (lensProp "firstName") (.obj [("a", .num 1)]) = .undefined ∧
    set (lensProp "firstName") (.str "Jane") (.obj [("a", .num 1)]) =
      .obj ([("a", .num 1)] ++ [("firstName", .str "Jane")]) :=
  C9_prop_absent_key "firstName" (.str "Jane") [("a", .num 1)] rfl

/-- C10: Property names are literal keys, never parsed as paths.  The
demo's assoc of the dotted name adds a single top-level key called
name.first and leaves the nested name object untouched. -/
theorem C10_literal_key :
    Demo.firstNameAssoc2 = .obj
      [("name", .obj [("first", .str "John"), ("last", .str "Doe")]),
       ("phones", .arr
         [.obj [("type", .str "home"), ("number", .str "5556667777")],
          .obj [("type", .str "work"), ("number", .str "5554443333")]]),
       ("name.first", .str "Jane")] ∧
    view (lensPath [.key "name", .key "first"]) Demo.firstNameAssoc2 = .str "John" ∧
    view (lensProp "name") Demo.firstNameAssoc2 = view (lensProp "name") Demo.person :=
  ⟨rfl, rfl, rfl⟩
